import Mathlib

/-!
# Verification of the k6 portable test bundle (archive) subsystem

This development embeds the archive subsystem described in the repository's
specification: the path normalization/anonymization function, the archive
metadata envelope and its JSON serialization, the archive container writer and
reader, the virtual filesystem variants (in-memory, cache-on-read, sealed),
and the script-loader `readFile` helper.

The Go implementation of `lib/archive.go` is not part of the source tree we
were given (only its test file `src/lib/archive_test.go` is), so the archive
codec and `NormalizeAndAnonymizePath` are modelled from the specification's
own algorithm and invariants, cross-checked against the concrete input/output
pairs fixed by the test file.  The loader helper `readFile` is embedded
directly from the source in `src/unnamed/part_001`.
-/

set_option maxRecDepth 100000

namespace K6

/-! ## Characters and small helpers -/

/-- ASCII letter test, as used by the drive-letter rewrite of §4.A step 3. -/
def isAsciiLetter (c : Char) : Bool :=
  ('a' ≤ c && c ≤ 'z') || ('A' ≤ c && c ≤ 'Z')

/-- A path separator before normalization: forward slash or backslash. -/
def isSepChar (c : Char) : Bool :=
  c = '/' || c = '\\'

/-- ASCII lower-casing of a single character (used for the case-insensitive
home-like segment match of §4.A step 6). -/
def lowerChar (c : Char) : Char :=
  if 'A' ≤ c && c ≤ 'Z' then Char.ofNat (c.toNat + 32) else c

/-! ## Path normalization (spec §4.A)

Modelled from the spec: the Go function `lib.NormalizeAndAnonymizePath` is not
in the given sources (only `src/lib/archive_test.go` exercises it), so the
function is reconstructed from §4.A of the specification:

1. UNC handling: a path beginning with two backslashes has its `\\SHARE` root
   collapsed, and the share name — "treated as a pseudo-home" per the spec's
   edge cases — is anonymized to `nobody`.
2. Drive letters: `<LETTER>:<sep>...` (optionally preceded by one separator,
   as required by the spec's `/C:/Users/alice/x` edge case and scenario 2)
   becomes `/<LETTER><sep>...`.
3. All backslashes become forward slashes.
4. Lexical cleaning: runs of `/` collapse, `.` segments drop, `..` segments
   resolve against the root (step 7 roots every result, so `..` resolution
   uses rooted semantics).
5. Anonymization: the segment following the first case-insensitive occurrence
   of `home`, `Users` or `Documents and Settings` is replaced by `nobody`,
   preserving the parent's case.
6. The result always begins with `/`.
-/

/-- The literal replacement segment for anonymized user names. -/
def nobodySeg : List Char := ['n', 'o', 'b', 'o', 'd', 'y']

/-- Step 1 (UNC): collapse a `\\SHARE` prefix into an anonymized `/nobody`
root.  The share name must be nonempty (mirroring the spec's `\\<SHARE>`
pattern); a single leading backslash is not UNC. -/
def uncStep (s : List Char) : List Char :=
  match s with
  | a :: b :: c :: rest =>
    if a = '\\' ∧ b = '\\' ∧ c ≠ '\\' then
      '/' :: nobodySeg ++ List.dropWhile (fun d => !(d = '\\')) rest
    else s
  | _ => s

/-- Does a list start with `<LETTER>:<separator>`? -/
def isDriveStart (s : List Char) : Bool :=
  match s with
  | b :: c :: d :: _ => isAsciiLetter b && (c == ':') && isSepChar d
  | _ => false

/-- Rewrite `<LETTER>:<sep>rest` to `<LETTER><sep>rest` (drop the colon). -/
def dropDriveColon (s : List Char) : List Char :=
  match s with
  | b :: ':' :: rest => b :: rest
  | _ => s

/-- Step 2 (drive letters): `<LETTER>:<sep>...`, optionally preceded by a
single separator, becomes `/<LETTER><sep>...`. -/
def driveStep (s : List Char) : List Char :=
  match s with
  | a :: rest =>
    if isSepChar a && isDriveStart rest then '/' :: dropDriveColon rest
    else if isDriveStart s then '/' :: dropDriveColon s
    else s
  | [] => []

/-- Step 3: replace every backslash with a forward slash. -/
def slashify (s : List Char) : List Char :=
  s.map (fun c => if c = '\\' then '/' else c)

/-- Split a character list into `/`-separated segments (empty segments are
preserved; cleaning drops them). -/
def splitSegs (s : List Char) : List (List Char) :=
  match s with
  | [] => [[]]
  | c :: rest =>
    match splitSegs rest with
    | seg :: segs => if c = '/' then [] :: seg :: segs else (c :: seg) :: segs
    | [] => [[c]]

/-- Step 4 (lexical cleaning) over segments: drop empty and `.` segments,
resolve `..` against the accumulated prefix (rooted semantics). -/
def cleanCore (acc : List (List Char)) : List (List Char) → List (List Char)
  | [] => acc.reverse
  | seg :: rest =>
    if seg = [] then cleanCore acc rest
    else if seg = ['.'] then cleanCore acc rest
    else if seg = ['.', '.'] then cleanCore acc.tail rest
    else cleanCore (seg :: acc) rest

/-- The three home-like parent segments of §4.A step 6, in lower case. -/
def homeLikeList : List (List Char) :=
  [['h', 'o', 'm', 'e'],
   ['u', 's', 'e', 'r', 's'],
   ['d', 'o', 'c', 'u', 'm', 'e', 'n', 't', 's', ' ', 'a', 'n', 'd', ' ',
    's', 'e', 't', 't', 'i', 'n', 'g', 's']]

/-- Case-insensitive home-like parent test. -/
def isHomeLike (seg : List Char) : Bool :=
  homeLikeList.contains (seg.map lowerChar)

/-- Replace the head segment (the one following a home-like parent) with
`nobody`. -/
def anonAfter : List (List Char) → List (List Char)
  | [] => []
  | _ :: rest => nobodySeg :: rest

/-- Step 5 (anonymize): rewrite the segment after the first home-like parent;
only the first match is rewritten. -/
def anonSegs : List (List Char) → List (List Char)
  | [] => []
  | seg :: rest =>
    if isHomeLike seg then seg :: anonAfter rest
    else seg :: anonSegs rest

/-- Join segments with `/`. -/
def joinSegs : List (List Char) → List Char
  | [] => []
  | [seg] => seg
  | seg :: rest => seg ++ '/' :: joinSegs rest

/-- Step 6: render the cleaned segments as an absolute path. -/
def renderAbs (segs : List (List Char)) : List Char :=
  '/' :: joinSegs segs

/-- The full normalization pipeline on character lists. -/
def normChars (s : List Char) : List Char :=
  renderAbs (anonSegs (cleanCore [] (splitSegs (slashify (driveStep (uncStep s))))))

/-- Modelled from the spec: `lib.NormalizeAndAnonymizePath` (§4.A), the single
pure, total, deterministic path normalization and anonymization function; its
Go source is absent from the tree, so it is reconstructed from the spec's
algorithm and edge cases, which the test `TestNormalizeAndAnonymizePath`
pins down concretely. -/
def NormalizeAndAnonymizePath (p : String) : String :=
  ⟨normChars p.data⟩

example : NormalizeAndAnonymizePath "/tmp" = "/tmp" := by decide
example : NormalizeAndAnonymizePath "/tmp/myfile.txt" = "/tmp/myfile.txt" := by decide
example : NormalizeAndAnonymizePath "/home/myname" = "/home/nobody" := by decide
example : NormalizeAndAnonymizePath "/home/myname/foo/bar/myfile.txt"
    = "/home/nobody/foo/bar/myfile.txt" := by decide
example : NormalizeAndAnonymizePath "/Users/myname/myfile.txt"
    = "/Users/nobody/myfile.txt" := by decide
example : NormalizeAndAnonymizePath "/Documents and Settings/myname/myfile.txt"
    = "/Documents and Settings/nobody/myfile.txt" := by decide
example : NormalizeAndAnonymizePath "\\\\MYSHARED\\dir\\dir\\myfile.txt"
    = "/nobody/dir/dir/myfile.txt" := by decide
example : NormalizeAndAnonymizePath "\\NOTSHARED\\dir\\dir\\myfile.txt"
    = "/NOTSHARED/dir/dir/myfile.txt" := by decide
example : NormalizeAndAnonymizePath "C:\\Users\\myname\\dir\\myfile.txt"
    = "/C/Users/nobody/dir/myfile.txt" := by decide
example : NormalizeAndAnonymizePath "D:\\Documents and Settings\\myname\\dir\\myfile.txt"
    = "/D/Documents and Settings/nobody/dir/myfile.txt" := by decide
example : NormalizeAndAnonymizePath "C:\\uSers\\myname\\dir\\myfile.txt"
    = "/C/uSers/nobody/dir/myfile.txt" := by decide
example : NormalizeAndAnonymizePath "D:\\doCUMENts aND Settings\\myname\\dir\\myfile.txt"
    = "/D/doCUMENts aND Settings/nobody/dir/myfile.txt" := by decide
example : NormalizeAndAnonymizePath "//etc/hosts" = "/etc/hosts" := by decide
example : NormalizeAndAnonymizePath "/C:/Users/Administrator" = "/C/Users/nobody" := by decide
example : NormalizeAndAnonymizePath "/path/with日本語/b.js" = "/path/with日本語/b.js" := by decide

/-! ## Lemmas about the normalizer -/

/-- A cleaned segment: nonempty, not `.`, not `..`. -/
def goodSeg (seg : List Char) : Prop :=
  seg ≠ [] ∧ seg ≠ ['.'] ∧ seg ≠ ['.', '.']

instance (seg : List Char) : Decidable (goodSeg seg) :=
  inferInstanceAs (Decidable (seg ≠ [] ∧ seg ≠ ['.'] ∧ seg ≠ ['.', '.']))

theorem goodSeg_nobody : goodSeg nobodySeg := by
  refine ⟨?_, ?_, ?_⟩ <;> decide

theorem mem_slashify {s : List Char} {c : Char} (hc : c ∈ slashify s) :
    c = '/' ∨ c ∈ s := by
  rcases List.mem_map.mp hc with ⟨d, hd, rfl⟩
  by_cases h : d = '\\'
  · exact Or.inl (by simp [h])
  · rw [if_neg h]; exact Or.inr hd

theorem not_backslash_of_mem_slashify {s : List Char} {c : Char}
    (hc : c ∈ slashify s) : c ≠ '\\' := by
  rcases List.mem_map.mp hc with ⟨d, _, rfl⟩
  by_cases h : d = '\\' <;> simp [h]

theorem slashify_eq_self {s : List Char} (h : '\\' ∉ s) : slashify s = s := by
  induction s with
  | nil => rfl
  | cons c t ih =>
    have hc : c ≠ '\\' := fun e => h (e ▸ List.mem_cons_self c t)
    have ht : '\\' ∉ t := fun m => h (List.mem_cons_of_mem c m)
    simp only [slashify, List.map_cons, if_neg hc]
    exact congrArg (c :: ·) (ih ht)

theorem uncStep_slash (t : List Char) : uncStep ('/' :: t) = '/' :: t := by
  rcases t with _ | ⟨b, _ | ⟨c, r⟩⟩
  · rfl
  · rfl
  · simp [uncStep]

theorem noColon_uncStep {s : List Char} (h : ':' ∉ s) : ':' ∉ uncStep s := by
  rcases s with _ | ⟨a, _ | ⟨b, _ | ⟨c, r⟩⟩⟩
  · exact h
  · exact h
  · exact h
  · by_cases hcond : a = '\\' ∧ b = '\\' ∧ c ≠ '\\'
    · simp only [uncStep, if_pos hcond]
      intro hm
      rcases List.mem_cons.mp hm with e | hm2
      · exact absurd e (by decide)
      · rcases List.mem_append.mp hm2 with hn | hd
        · exact absurd hn (by decide)
        · have : ':' ∈ r := (List.dropWhile_sublist _).subset hd
          exact h (by simp [this])
    · simp only [uncStep, if_neg hcond]; exact h

theorem isDriveStart_false_of_second_ne {b c : Char} {r : List Char}
    (hc : c ≠ ':') : isDriveStart (b :: c :: r) = false := by
  rcases r with _ | ⟨d, r2⟩
  · rfl
  · simp [isDriveStart, hc]

theorem driveStep_eq_of_noColon {s : List Char} (h : ':' ∉ s) :
    driveStep s = s := by
  rcases s with _ | ⟨a, rest⟩
  · rfl
  · have h1 : isDriveStart rest = false := by
      rcases rest with _ | ⟨b, _ | ⟨c, r⟩⟩
      · rfl
      · rfl
      · have hc : c ≠ ':' := fun e => h (by subst e; simp)
        exact isDriveStart_false_of_second_ne hc
    have h2 : isDriveStart (a :: rest) = false := by
      rcases rest with _ | ⟨b, r⟩
      · rfl
      · have hb : b ≠ ':' := fun e => h (by subst e; simp)
        exact isDriveStart_false_of_second_ne hb
    simp [driveStep, h1, h2]

theorem splitSegs_ne_nil (s : List Char) : splitSegs s ≠ [] := by
  induction s with
  | nil => simp [splitSegs]
  | cons c t ih =>
    cases h : splitSegs t with
    | nil => exact absurd h ih
    | cons seg segs =>
      simp only [splitSegs, h]
      by_cases hc : c = '/' <;> simp [hc]

theorem splitSegs_cons_slash (s : List Char) :
    splitSegs ('/' :: s) = [] :: splitSegs s := by
  cases h : splitSegs s with
  | nil => exact absurd h (splitSegs_ne_nil s)
  | cons seg segs => simp [splitSegs, h]

theorem splitSegs_no_slash {s : List Char} (h : '/' ∉ s) : splitSegs s = [s] := by
  induction s with
  | nil => rfl
  | cons c t ih =>
    have hc : c ≠ '/' := fun e => h (e ▸ List.mem_cons_self c t)
    have ht : '/' ∉ t := fun m => h (List.mem_cons_of_mem c m)
    simp [splitSegs, ih ht, hc]

theorem splitSegs_append {s t : List Char} (h : '/' ∉ s) :
    splitSegs (s ++ '/' :: t) = s :: splitSegs t := by
  induction s with
  | nil => simpa using splitSegs_cons_slash t
  | cons c u ih =>
    have hc : c ≠ '/' := fun e => h (e ▸ List.mem_cons_self c u)
    have hu : '/' ∉ u := fun m => h (List.mem_cons_of_mem c m)
    simp [splitSegs, ih hu, hc]

theorem not_slash_of_mem_splitSegs : ∀ {l : List Char} {seg : List Char},
    seg ∈ splitSegs l → '/' ∉ seg := by
  intro l
  induction l with
  | nil =>
    intro seg hs
    simp [splitSegs] at hs
    simp [hs]
  | cons c t ih =>
    intro seg hs
    cases hsp : splitSegs t with
    | nil => exact absurd hsp (splitSegs_ne_nil t)
    | cons s0 ss =>
      simp only [splitSegs, hsp] at hs
      by_cases hc : c = '/'
      · rw [if_pos hc] at hs
        rcases List.mem_cons.mp hs with e | hs2
        · simp [e]
        · exact ih (hsp ▸ hs2)
      · rw [if_neg hc] at hs
        rcases List.mem_cons.mp hs with e | hs2
        · subst e
          intro hmem
          rcases List.mem_cons.mp hmem with e2 | hmem2
          · exact hc e2.symm
          · exact ih (hsp ▸ List.mem_cons_self s0 ss) hmem2
        · exact ih (hsp ▸ List.mem_cons_of_mem s0 hs2)

theorem mem_of_mem_splitSegs : ∀ {l seg : List Char} {c : Char},
    seg ∈ splitSegs l → c ∈ seg → c ∈ l := by
  intro l
  induction l with
  | nil =>
    intro seg c hs hc
    simp [splitSegs] at hs
    subst hs
    cases hc
  | cons a t ih =>
    intro seg c hs hc
    cases hsp : splitSegs t with
    | nil => exact absurd hsp (splitSegs_ne_nil t)
    | cons s0 ss =>
      simp only [splitSegs, hsp] at hs
      by_cases ha : a = '/'
      · rw [if_pos ha] at hs
        rcases List.mem_cons.mp hs with e | hs2
        · subst e; cases hc
        · exact List.mem_cons_of_mem a (ih (hsp ▸ hs2) hc)
      · rw [if_neg ha] at hs
        rcases List.mem_cons.mp hs with e | hs2
        · subst e
          rcases List.mem_cons.mp hc with e2 | hc2
          · exact e2 ▸ List.mem_cons_self a t
          · exact List.mem_cons_of_mem a
              (ih (hsp ▸ List.mem_cons_self s0 ss) hc2)
        · exact List.mem_cons_of_mem a
            (ih (hsp ▸ List.mem_cons_of_mem s0 hs2) hc)

theorem mem_joinSegs : ∀ {segs : List (List Char)} {c : Char},
    c ∈ joinSegs segs → c = '/' ∨ ∃ seg ∈ segs, c ∈ seg := by
  intro segs
  induction segs with
  | nil => intro c hc; cases hc
  | cons seg rest ih =>
    intro c hc
    cases rest with
    | nil => exact Or.inr ⟨seg, List.mem_cons_self _ _, hc⟩
    | cons b bs =>
      have : joinSegs (seg :: b :: bs) = seg ++ '/' :: joinSegs (b :: bs) := rfl
      rw [this] at hc
      rcases List.mem_append.mp hc with h1 | h2
      · exact Or.inr ⟨seg, List.mem_cons_self _ _, h1⟩
      · rcases List.mem_cons.mp h2 with e | h3
        · exact Or.inl e
        · rcases ih h3 with e | ⟨s2, hs2, hc2⟩
          · exact Or.inl e
          · exact Or.inr ⟨s2, List.mem_cons_of_mem seg hs2, hc2⟩

theorem splitSegs_joinSegs : ∀ {segs : List (List Char)}, segs ≠ [] →
    (∀ seg ∈ segs, '/' ∉ seg) → splitSegs (joinSegs segs) = segs := by
  intro segs
  induction segs with
  | nil => intro h; exact absurd rfl h
  | cons seg rest ih =>
    intro _ h
    cases rest with
    | nil => exact splitSegs_no_slash (h seg (List.mem_cons_self _ _))
    | cons b bs =>
      have hj : joinSegs (seg :: b :: bs) = seg ++ '/' :: joinSegs (b :: bs) := rfl
      rw [hj, splitSegs_append (h seg (List.mem_cons_self _ _)),
        ih (List.cons_ne_nil b bs) (fun s hs => h s (List.mem_cons_of_mem seg hs))]

theorem cleanCore_nil_cons (acc : List (List Char)) (segs : List (List Char)) :
    cleanCore acc ([] :: segs) = cleanCore acc segs := by
  rw [cleanCore, if_pos rfl]

theorem cleanCore_of_good : ∀ {segs : List (List Char)},
    (∀ seg ∈ segs, goodSeg seg) → ∀ acc, cleanCore acc segs = acc.reverse ++ segs := by
  intro segs
  induction segs with
  | nil => intro _ acc; simp [cleanCore]
  | cons seg rest ih =>
    intro h acc
    obtain ⟨h1, h2, h3⟩ := h seg (List.mem_cons_self _ _)
    rw [cleanCore, if_neg h1, if_neg h2, if_neg h3,
      ih (fun s hs => h s (List.mem_cons_of_mem seg hs)) (seg :: acc)]
    simp

theorem goodSeg_of_mem_cleanCore : ∀ {segs acc : List (List Char)},
    (∀ s ∈ acc, goodSeg s) → ∀ s ∈ cleanCore acc segs, goodSeg s := by
  intro segs
  induction segs with
  | nil =>
    intro acc hacc s hs
    simp only [cleanCore] at hs
    exact hacc s (List.mem_reverse.mp hs)
  | cons seg rest ih =>
    intro acc hacc s hs
    by_cases e1 : seg = []
    · rw [cleanCore, if_pos e1] at hs; exact ih hacc s hs
    · by_cases e2 : seg = ['.']
      · rw [cleanCore, if_neg e1, if_pos e2] at hs; exact ih hacc s hs
      · by_cases e3 : seg = ['.', '.']
        · rw [cleanCore, if_neg e1, if_neg e2, if_pos e3] at hs
          exact ih (fun t ht => hacc t (List.tail_subset acc ht)) s hs
        · rw [cleanCore, if_neg e1, if_neg e2, if_neg e3] at hs
          refine ih ?_ s hs
          intro t ht
          rcases List.mem_cons.mp ht with e | ht2
          · exact e ▸ ⟨e1, e2, e3⟩
          · exact hacc t ht2

theorem mem_of_mem_cleanCore : ∀ {segs acc : List (List Char)} {s : List Char},
    s ∈ cleanCore acc segs → s ∈ acc ∨ s ∈ segs := by
  intro segs
  induction segs with
  | nil =>
    intro acc s hs
    simp only [cleanCore] at hs
    exact Or.inl (List.mem_reverse.mp hs)
  | cons seg rest ih =>
    intro acc s hs
    by_cases e1 : seg = []
    · rw [cleanCore, if_pos e1] at hs
      rcases ih hs with h | h
      · exact Or.inl h
      · exact Or.inr (List.mem_cons_of_mem seg h)
    · by_cases e2 : seg = ['.']
      · rw [cleanCore, if_neg e1, if_pos e2] at hs
        rcases ih hs with h | h
        · exact Or.inl h
        · exact Or.inr (List.mem_cons_of_mem seg h)
      · by_cases e3 : seg = ['.', '.']
        · rw [cleanCore, if_neg e1, if_neg e2, if_pos e3] at hs
          rcases ih hs with h | h
          · exact Or.inl (List.tail_subset acc h)
          · exact Or.inr (List.mem_cons_of_mem seg h)
        · rw [cleanCore, if_neg e1, if_neg e2, if_neg e3] at hs
          rcases ih hs with h | h
          · rcases List.mem_cons.mp h with e | h2
            · exact Or.inr (e ▸ List.mem_cons_self seg rest)
            · exact Or.inl h2
          · exact Or.inr (List.mem_cons_of_mem seg h)

theorem mem_anonSegs : ∀ {segs : List (List Char)} {s : List Char},
    s ∈ anonSegs segs → s ∈ segs ∨ s = nobodySeg := by
  intro segs
  induction segs with
  | nil => intro s hs; cases hs
  | cons seg rest ih =>
    intro s hs
    by_cases hh : isHomeLike seg = true
    · rw [anonSegs, if_pos hh] at hs
      rcases List.mem_cons.mp hs with e | hs2
      · exact Or.inl (e ▸ List.mem_cons_self seg rest)
      · cases rest with
        | nil => cases hs2
        | cons b bs =>
          rcases List.mem_cons.mp hs2 with e | hs3
          · exact Or.inr e
          · exact Or.inl (List.mem_cons_of_mem seg (List.mem_cons_of_mem b hs3))
    · rw [anonSegs, if_neg hh] at hs
      rcases List.mem_cons.mp hs with e | hs2
      · exact Or.inl (e ▸ List.mem_cons_self seg rest)
      · rcases ih hs2 with h | h
        · exact Or.inl (List.mem_cons_of_mem seg h)
        · exact Or.inr h

theorem anonAfter_idem (rest : List (List Char)) :
    anonAfter (anonAfter rest) = anonAfter rest := by
  cases rest <;> rfl

theorem anonSegs_idem : ∀ segs : List (List Char),
    anonSegs (anonSegs segs) = anonSegs segs := by
  intro segs
  induction segs with
  | nil => rfl
  | cons seg rest ih =>
    by_cases hh : isHomeLike seg = true
    · rw [anonSegs, if_pos hh, anonSegs, if_pos hh, anonAfter_idem]
    · rw [anonSegs, if_neg hh, anonSegs, if_neg hh, ih]

/-- Running the normalizer on a rendered path made of good, separator-free,
colon-free segments just anonymizes the segments. -/
theorem normChars_renderAbs {g : List (List Char)}
    (hgood : ∀ seg ∈ g, goodSeg seg) (hsl : ∀ seg ∈ g, '/' ∉ seg)
    (hbs : ∀ seg ∈ g, '\\' ∉ seg) (hcol : ∀ seg ∈ g, ':' ∉ seg) :
    normChars (renderAbs g) = renderAbs (anonSegs g) := by
  have hyc : ':' ∉ ('/' :: joinSegs g) := by
    intro hm
    rcases List.mem_cons.mp hm with e | hm2
    · exact absurd e (by decide)
    · rcases mem_joinSegs hm2 with e | ⟨seg, hseg, hc⟩
      · exact absurd e (by decide)
      · exact hcol seg hseg hc
  have hyb : '\\' ∉ ('/' :: joinSegs g) := by
    intro hm
    rcases List.mem_cons.mp hm with e | hm2
    · exact absurd e (by decide)
    · rcases mem_joinSegs hm2 with e | ⟨seg, hseg, hc⟩
      · exact absurd e (by decide)
      · exact hbs seg hseg hc
  show renderAbs (anonSegs (cleanCore [] (splitSegs (slashify
      (driveStep (uncStep ('/' :: joinSegs g))))))) = renderAbs (anonSegs g)
  rw [uncStep_slash, driveStep_eq_of_noColon hyc, slashify_eq_self hyb,
    splitSegs_cons_slash, cleanCore_nil_cons]
  rcases hg : g with _ | ⟨a, rest⟩
  · decide
  · rw [← hg, splitSegs_joinSegs (hg ▸ List.cons_ne_nil a rest) hsl,
      cleanCore_of_good hgood, List.reverse_nil, List.nil_append]

/-- Core idempotence step: a rendered path made of good, separator-free,
anonymization-stable segments is a fixed point of the normalizer. -/
theorem normChars_fixed {g : List (List Char)}
    (hgood : ∀ seg ∈ g, goodSeg seg) (hsl : ∀ seg ∈ g, '/' ∉ seg)
    (hbs : ∀ seg ∈ g, '\\' ∉ seg) (hcol : ∀ seg ∈ g, ':' ∉ seg)
    (hfix : anonSegs g = g) :
    normChars ('/' :: joinSegs g) = '/' :: joinSegs g :=
  (normChars_renderAbs hgood hsl hbs hcol).trans (congrArg renderAbs hfix)

/-- Idempotence of the normalizer on colon-free inputs. -/
theorem normChars_idem {s : List Char} (h : ':' ∉ s) :
    normChars (normChars s) = normChars s := by
  have hdrive : driveStep (uncStep s) = uncStep s :=
    driveStep_eq_of_noColon (noColon_uncStep h)
  have husub : ∀ c : Char, c ∈ uncStep s → c = '/' ∨ c ∈ nobodySeg ∨ c ∈ s := by
    intro c hc
    rcases s with _ | ⟨a, _ | ⟨b, _ | ⟨c0, r⟩⟩⟩
    · exact Or.inr (Or.inr hc)
    · exact Or.inr (Or.inr hc)
    · exact Or.inr (Or.inr hc)
    · by_cases hcond : a = '\\' ∧ b = '\\' ∧ c0 ≠ '\\'
      · simp only [uncStep, if_pos hcond] at hc
        rcases List.mem_cons.mp hc with e | hm2
        · exact Or.inl e
        · rcases List.mem_append.mp hm2 with hn | hd
          · exact Or.inr (Or.inl hn)
          · have : c ∈ r := (List.dropWhile_sublist _).subset hd
            exact Or.inr (Or.inr (by simp [this]))
      · simp only [uncStep, if_neg hcond] at hc
        exact Or.inr (Or.inr hc)
  -- facts about the segments of `normChars s`
  have hsegsub : ∀ seg ∈ anonSegs (cleanCore [] (splitSegs (slashify
      (driveStep (uncStep s))))), ∀ c ∈ seg,
      c = '/' ∨ c ∈ nobodySeg ∨ (c ∈ uncStep s ∧ c ≠ '\\') := by
    intro seg hseg c hc
    rcases mem_anonSegs hseg with hw | rfl
    · rcases mem_of_mem_cleanCore hw with ha | hm
      · cases ha
      · have hcs : c ∈ slashify (driveStep (uncStep s)) :=
          mem_of_mem_splitSegs hm hc
        have hnb : c ≠ '\\' := not_backslash_of_mem_slashify hcs
        rcases mem_slashify hcs with e | hm2
        · exact Or.inl e
        · exact Or.inr (Or.inr ⟨hdrive ▸ hm2, hnb⟩)
    · exact Or.inr (Or.inl hc)
  have hgood : ∀ seg ∈ anonSegs (cleanCore [] (splitSegs (slashify
      (driveStep (uncStep s))))), goodSeg seg := by
    intro seg hseg
    rcases mem_anonSegs hseg with hw | rfl
    · exact goodSeg_of_mem_cleanCore (by intro t ht; cases ht) seg hw
    · exact goodSeg_nobody
  have hsl : ∀ seg ∈ anonSegs (cleanCore [] (splitSegs (slashify
      (driveStep (uncStep s))))), '/' ∉ seg := by
    intro seg hseg
    rcases mem_anonSegs hseg with hw | rfl
    · rcases mem_of_mem_cleanCore hw with ha | hm
      · cases ha
      · exact not_slash_of_mem_splitSegs hm
    · decide
  have hbs : ∀ seg ∈ anonSegs (cleanCore [] (splitSegs (slashify
      (driveStep (uncStep s))))), '\\' ∉ seg := by
    intro seg hseg hc
    rcases hsegsub seg hseg '\\' hc with e | h2
    · exact absurd e (by decide)
    · rcases h2 with hn | ⟨_, hne⟩
      · exact absurd hn (by decide)
      · exact hne rfl
  have hcol : ∀ seg ∈ anonSegs (cleanCore [] (splitSegs (slashify
      (driveStep (uncStep s))))), ':' ∉ seg := by
    intro seg hseg hc
    rcases hsegsub seg hseg ':' hc with e | h2
    · exact absurd e (by decide)
    · rcases h2 with hn | ⟨hu, _⟩
      · exact absurd hn (by decide)
      · exact noColon_uncStep h hu
  exact normChars_fixed hgood hsl hbs hcol (anonSegs_idem _)

/-- Idempotence at the `String` level, on colon-free paths. -/
theorem normalize_idem_of_no_colon (p : String) (h : ':' ∉ p.data) :
    NormalizeAndAnonymizePath (NormalizeAndAnonymizePath p)
      = NormalizeAndAnonymizePath p := by
  have : normChars (normChars p.data) = normChars p.data := normChars_idem h
  simpa [NormalizeAndAnonymizePath] using congrArg String.mk this

example : NormalizeAndAnonymizePath "//C:/d" = "/C:/d" := by decide
example : NormalizeAndAnonymizePath "/C:/d" = "/C/d" := by decide

/-! ## URLs

Modelled from the spec (§3): a URL is a scheme plus a path. -/

/-- A URL of the replay namespace: scheme plus path. -/
structure Url where
  scheme : String
  path : String
deriving DecidableEq

/-- The string rendering of a URL (`file:///path/to` style). -/
def urlString (u : Url) : String :=
  u.scheme ++ "://" ++ u.path

/-- Strip the `://` separator from the remainder after the scheme. -/
def urlPathOfRest : List Char → List Char
  | ':' :: '/' :: '/' :: p => p
  | rest => rest

/-- Recover a URL from its string rendering: the scheme is everything before
the first colon. -/
def parseUrl (s : String) : Url :=
  ⟨⟨s.data.takeWhile (fun c => !(c = ':'))⟩,
   ⟨urlPathOfRest (s.data.dropWhile (fun c => !(c = ':')))⟩⟩

/-! ## JSON string escaping (spec §4.E)

Modelled from the spec: metadata serialization uses a JSON encoder with HTML
escaping disabled, so `<`, `>`, `&` stay literal; only the JSON-mandatory
quote and backslash escapes are modelled. -/

/-- Escape a single character for a JSON string literal (HTML escaping
disabled). -/
def escChar (c : Char) : List Char :=
  if c = '"' then ['\\', '"']
  else if c = '\\' then ['\\', '\\'] else [c]

/-- Escape a whole string body. -/
def escChars : List Char → List Char
  | [] => []
  | c :: t => escChar c ++ escChars t

/-- Parse a JSON string body up to (and consuming) the closing quote,
undoing `escChars`. -/
def parseEsc : List Char → Option (List Char × List Char)
  | [] => none
  | c :: rest =>
    if c = '"' then some ([], rest)
    else if c = '\\' then
      match rest with
      | [] => none
      | e :: rest2 =>
        if e = '"' ∨ e = '\\' then
          (parseEsc rest2).map (fun sr => (e :: sr.1, sr.2))
        else none
    else (parseEsc rest).map (fun sr => (c :: sr.1, sr.2))

/-! ## Virtual filesystems (spec §4.B, §4.D, §6)

Modelled from the spec: an in-memory filesystem is an association list from
paths to byte contents; a cache-on-read filesystem carries a base and a
cache layer; a sealed filesystem (the state of a replayed archive) serves
only the paths that were observed (its cache), failing with the
`ErrPathNeverRequestedBefore` sentinel on every other path. -/

/-- Association-list lookup by string key. -/
def assocFind {α : Type} : List (String × α) → String → Option α
  | [], _ => none
  | e :: rest, s => if e.1 = s then some e.2 else assocFind rest s

/-- Filesystem read errors: the sealed-filesystem sentinel and plain
not-found. -/
inductive FsError where
  | pathNeverRequestedBefore
  | notExist (path : String)
deriving DecidableEq

/-- The error message carried by each filesystem error; the sentinel's text
is the spec's "path never requested before". -/
def FsError.message : FsError → String
  | .pathNeverRequestedBefore => "path never requested before"
  | .notExist p => "open " ++ p ++ ": file does not exist"

/-- The three virtual-filesystem variants of the spec. -/
inductive FS where
  | mem (files : List (String × String))
  | cacheOnRead (base : List (String × String)) (cache : List (String × String))
  | sealed (files : List (String × String))
deriving DecidableEq

/-- The files the archive writer serializes for a filesystem: the full
contents of an in-memory FS, and only the cache layer of a cache-on-read FS
(the base layer was never observed). -/
def walkFiles : FS → List (String × String)
  | .mem files => files
  | .cacheOnRead _ cache => cache
  | .sealed files => files

/-- All files visible to `stat`-like queries (a cache-on-read FS layers the
cache over the base). -/
def dirFiles : FS → List (String × String)
  | .mem files => files
  | .cacheOnRead base cache => cache ++ base
  | .sealed files => files

/-- Read a file through a VFS.  Input paths are normalized before lookup
(§4.B).  A sealed filesystem fails with the sentinel on paths outside its
observed set. -/
def fsRead (fs : FS) (p : String) : Except FsError String :=
  match fs with
  | .mem files =>
    match assocFind files (NormalizeAndAnonymizePath p) with
    | some b => .ok b
    | none => .error (.notExist p)
  | .cacheOnRead base cache =>
    match assocFind cache (NormalizeAndAnonymizePath p) with
    | some b => .ok b
    | none =>
      match assocFind base (NormalizeAndAnonymizePath p) with
      | some b => .ok b
      | none => .error (.notExist p)
  | .sealed files =>
    match assocFind files (NormalizeAndAnonymizePath p) with
    | some b => .ok b
    | none => .error .pathNeverRequestedBefore

/-- Boolean list-prefix test. -/
def listPrefixB : List Char → List Char → Bool
  | [], _ => true
  | _ :: _, [] => false
  | a :: s, b :: t => a == b && listPrefixB s t

/-- Does `p` name a directory?  Directories are implicit: `p` is a directory
when some file lives strictly below it. -/
def fsIsDir (fs : FS) (p : String) : Bool :=
  let np := NormalizeAndAnonymizePath p
  (dirFiles fs).any (fun e => listPrefixB (np.data ++ ['/']) e.1.data)
    || (np = "/" && !(dirFiles fs).isEmpty)

/-- The directory error message of `js.readFile`
(`src/unnamed/part_001:65`). -/
def dirErrorMsg (filename : String) : String :=
  "open() can't be used with directories, path: \"" ++ filename ++ "\""

/-- The user-facing message `js.readFile` substitutes for the
`ErrPathNeverRequestedBefore` sentinel (`src/unnamed/part_001:54`). -/
def initContextErrorMsg (filename : String) : String :=
  "open() can't be used with files that weren't previously opened during initialization (__VU==0), path: \""
    ++ filename ++ "\""

/-- Embedded from `src/unnamed/part_001` (`js.readFile`): the implementation
behind the init-context `open()`.  It first refuses directories, then reads
the file, converting the `ErrPathNeverRequestedBefore` sentinel into the
user-facing init-phase message (the Go code does this in a deferred error
rewrite). -/
def readFile (fileSystem : FS) (filename : String) : Except String String :=
  if fsIsDir fileSystem filename then .error (dirErrorMsg filename)
  else
    match fsRead fileSystem filename with
    | .ok d => .ok d
    | .error FsError.pathNeverRequestedBefore => .error (initContextErrorMsg filename)
    | .error e => .error e.message

/-! ## The archive (spec §3, §4.E, §4.F, §6)

Modelled from the spec: `lib.Archive` with the §3 metadata envelope and the
scheme-keyed filesystem map. -/

/-- The archive: metadata envelope plus filesystem map.  `options` is the
opaque options sub-document, preserved verbatim; `filename`/`pwd` are the
legacy string fields. -/
structure Archive where
  arcType : String
  k6Version : String
  options : String
  filename : String
  filenameURL : Url
  pwd : String
  pwdURL : Url
  data : Option String
  filesystems : List (String × FS)
deriving DecidableEq

/-- Shorthand for a string literal's characters. -/
def lit (s : String) : List Char := s.data

/-- The optional `data` field chunk of the metadata JSON. -/
def dataChunk : Option String → List Char
  | none => []
  | some d => lit ",\"data\":\"" ++ escChars d.data ++ ['"']

/-- The body of `metadata.json` after the opening `\x7b"`.  Field order
follows the spec's §6 table, with the opaque `options` sub-document emitted
verbatim as the last field so the encoding stays uniquely decodable. -/
def metaBody (A : Archive) : List Char :=
  lit "type\":\"" ++ escChars A.arcType.data ++ '"' ::
  (lit ",\"k6_version\":\"" ++ escChars A.k6Version.data ++ '"' ::
  (lit ",\"filename\":\"" ++ escChars A.filename.data ++ '"' ::
  (lit ",\"filename_url\":\"" ++ escChars (urlString A.filenameURL).data ++ '"' ::
  (lit ",\"pwd\":\"" ++ escChars A.pwd.data ++ '"' ::
  (lit ",\"pwd_url\":\"" ++ escChars (urlString A.pwdURL).data ++ '"' ::
  (dataChunk A.data ++ (lit ",\"options\":" ++ (A.options.data ++ ['\x7d']))))))))

/-- The full `metadata.json` character stream. -/
def metaChars (A : Archive) : List Char :=
  '\x7b' :: '"' :: metaBody A

/-- `Archive.json`: the serialized metadata, with HTML-unsafe characters
left unescaped (§4.E). -/
def Archive.json (A : Archive) : String :=
  ⟨metaChars A⟩

/-- Lift an `Option` into the metadata parser's error monad. -/
def reqd {α : Type} : Option α → Except String α
  | some a => .ok a
  | none => .error "invalid metadata"

/-- Strip an expected literal prefix. -/
def stripPfx : List Char → List Char → Option (List Char)
  | [], rest => some rest
  | _ :: _, [] => none
  | p :: ps, c :: cs => if c = p then stripPfx ps cs else none

/-- Expect a literal chunk of the metadata grammar. -/
def expectLit (p : String) (l : List Char) : Except String (List Char) :=
  reqd (stripPfx p.data l)

/-- Parse a JSON string value (consuming the closing quote). -/
def parseStr (l : List Char) : Except String (String × List Char) :=
  match parseEsc l with
  | some (s, r) => .ok (⟨s⟩, r)
  | none => .error "invalid metadata"

/-- Parse the optional `data` field. -/
def parseOptData (l : List Char) : Except String (Option String × List Char) :=
  match stripPfx (lit ",\"data\":\"") l with
  | some rd =>
    match parseEsc rd with
    | some (d, rr) => .ok (some ⟨d⟩, rr)
    | none => .error "invalid metadata"
  | none => .ok (none, l)

/-- Parse the trailing verbatim `options` sub-document (everything up to the
closing brace). -/
def parseOptionsTail (l : List Char) : Except String String :=
  if l.getLast? = some '\x7d' then .ok ⟨l.dropLast⟩ else .error "invalid metadata"

/-- Parse the metadata body (after `\x7b"`). -/
def parseMetaBody (l : List Char) : Except String Archive := do
  let r1 ← expectLit "type\":\"" l
  let (ty, r2) ← parseStr r1
  let r3 ← expectLit ",\"k6_version\":\"" r2
  let (kv, r4) ← parseStr r3
  let r5 ← expectLit ",\"filename\":\"" r4
  let (fn, r6) ← parseStr r5
  let r7 ← expectLit ",\"filename_url\":\"" r6
  let (fnu, r8) ← parseStr r7
  let r9 ← expectLit ",\"pwd\":\"" r8
  let (pw, r10) ← parseStr r9
  let r11 ← expectLit ",\"pwd_url\":\"" r10
  let (pwu, r12) ← parseStr r11
  let dr ← parseOptData r12
  let r14 ← expectLit ",\"options\":" dr.2
  let opts ← parseOptionsTail r14
  pure { arcType := ty, k6Version := kv, options := opts, filename := fn,
         filenameURL := parseUrl fnu, pwd := pw, pwdURL := parseUrl pwu,
         data := dr.1, filesystems := [] }

/-- Parse `metadata.json`.  On malformed input the error carries the Go
JSON-parser diagnostic, exactly as the spec's reader contract demands. -/
def parseMeta (l : List Char) : Except String Archive :=
  match l with
  | [] => .error "unexpected end of JSON input"
  | c0 :: rest0 =>
    if c0 = '\x7b' then
      match rest0 with
      | [] => .error "unexpected end of JSON input"
      | c1 :: rest1 =>
        if c1 = '"' then parseMetaBody rest1
        else .error ⟨lit "invalid character '" ++ [c1]
          ++ lit "' looking for beginning of object key string"⟩
    else .error ⟨lit "invalid character '" ++ [c0]
      ++ lit "' looking for beginning of value"⟩

/-! ## The archive container codec (spec §4.F, §6) -/

/-- The container: a flat list of named byte entries (the tar/gzip framing
is abstracted away, as the spec's §4.F allows). -/
abbrev Container := List (String × String)

instance {ε α : Type} [DecidableEq ε] [DecidableEq α] : DecidableEq (Except ε α) := fun x y =>
  match x, y with
  | .error a, .error b =>
    if h : a = b then .isTrue (congrArg Except.error h)
    else .isFalse (fun e => h (Except.error.inj e))
  | .ok a, .ok b =>
    if h : a = b then .isTrue (congrArg Except.ok h)
    else .isFalse (fun e => h (Except.ok.inj e))
  | .error _, .ok _ => .isFalse (fun e => Except.noConfusion e)
  | .ok _, .error _ => .isFalse (fun e => Except.noConfusion e)

/-- Normalize a URL's path component. -/
def normalizeUrl (u : Url) : Url :=
  ⟨u.scheme, NormalizeAndAnonymizePath u.path⟩

/-- The metadata actually written: URLs normalized, legacy string fields
populated from them (§4.F step 2, §3). -/
def normalizeMetaArchive (A : Archive) : Archive :=
  { A with
    filenameURL := normalizeUrl A.filenameURL
    pwdURL := normalizeUrl A.pwdURL
    filename := urlString (normalizeUrl A.filenameURL)
    pwd := urlString (normalizeUrl A.pwdURL)
    filesystems := [] }

/-- The file entries of the container: every regular file of every scheme,
under `<scheme><normalized path>` (§4.F step 3, §6). -/
def writeEntries : List (String × FS) → List (String × String)
  | [] => []
  | sf :: rest =>
    (walkFiles sf.2).map (fun e => (sf.1 ++ NormalizeAndAnonymizePath e.1, e.2))
      ++ writeEntries rest

/-- The files reachable for a scheme in an archive's filesystem map. -/
def filesOfA (A : Archive) (s : String) : List (String × String) :=
  match assocFind A.filesystems s with
  | some fs => walkFiles fs
  | none => []

/-- The write-time validation error (§4.F step 1, §7). -/
def mainScriptMissingMsg : String :=
  "the main script wasn't present in the cached filesystem"

/-- The files of a scheme with their paths normalized, as the writer emits
them (§4.F step 3). -/
def normFilesOfA (A : Archive) (s : String) : List (String × String) :=
  (filesOfA A s).map (fun e => (NormalizeAndAnonymizePath e.1, e.2))

/-- Does the data/entry invariant of §3 hold?  When `data` is present the
`file` filesystem must contain, at the normalized entry path, a file whose
bytes equal `data` (file paths are themselves compared after
normalization, matching the writer's normalize-at-boundary rule). -/
def dataOk (A : Archive) : Bool :=
  match A.data with
  | none => true
  | some d =>
    decide (assocFind (normFilesOfA A "file")
      (NormalizeAndAnonymizePath A.filenameURL.path) = some d)

/-- The archive writer (§4.F): validate the data/entry invariant, normalize
the metadata paths, and emit `metadata.json` plus one entry per regular
file.  On a validation failure nothing is written. -/
def writeArchive (A : Archive) : Except String Container :=
  if dataOk A then
    .ok (("metadata.json", Archive.json (normalizeMetaArchive A)) :: writeEntries A.filesystems)
  else .error mainScriptMissingMsg

/-- The scheme component of a container entry name. -/
def schemeOfEntry (p : String) : String :=
  ⟨p.data.takeWhile (fun c => !(c = '/'))⟩

/-- The path component of a container entry name. -/
def pathOfEntry (p : String) : String :=
  ⟨p.data.dropWhile (fun c => !(c = '/'))⟩

/-- Group the non-metadata entries of a container by scheme. -/
def readFilesFor (fes : List (String × String)) (s : String) : List (String × String) :=
  fes.filterMap (fun e =>
    if schemeOfEntry e.1 = s then some (pathOfEntry e.1, e.2) else none)

/-- Order-preserving duplicate removal (first occurrence wins). -/
def dedupFirst (seen : List String) : List String → List String
  | [] => []
  | s :: rest =>
    if s ∈ seen then dedupFirst seen rest else s :: dedupFirst (s :: seen) rest

/-- The archive reader (§4.F): parse `metadata.json` (propagating its parse
diagnostic verbatim), then rebuild the filesystem map by scheme prefix; the
`file` and `https` schemes are always re-materialized (empty if no entries),
and every reconstructed filesystem is sealed to the paths it contains. -/
def readArchive (c : Container) : Except String Archive :=
  match assocFind c "metadata.json" with
  | none => .error "metadata.json not found in the archive"
  | some m =>
    match parseMeta m.data with
    | .error e => .error e
    | .ok md =>
      let fes := c.filter (fun e => !(e.1 == "metadata.json"))
      let schemes := dedupFirst [] ("file" :: "https" :: fes.map (fun e => schemeOfEntry e.1))
      .ok { md with filesystems := schemes.map (fun s => (s, FS.sealed (readFilesFor fes s))) }

/-- Write-then-read composition. -/
def roundtrip (A : Archive) : Except String Archive :=
  match writeArchive A with
  | .ok c => readArchive c
  | .error e => .error e

/-! ## Inversion of the metadata codec -/

theorem ebind_ok {α β : Type} (a : α) (f : α → Except String β) :
    (Except.ok a : Except String α) >>= f = f a := rfl

theorem stripPfx_append : ∀ (p rest : List Char), stripPfx p (p ++ rest) = some rest := by
  intro p rest
  induction p with
  | nil => rfl
  | cons c ps ih => simp [stripPfx, ih]

theorem expectLit_append (p : String) (rest : List Char) :
    expectLit p (lit p ++ rest) = .ok rest := by
  simp [expectLit, lit, stripPfx_append, reqd]

theorem parseEsc_quote (r : List Char) : parseEsc ('"' :: r) = some ([], r) := by
  rw [parseEsc.eq_def]; simp

theorem parseEsc_escaped (e : Char) (r : List Char) (he : e = '"' ∨ e = '\\') :
    parseEsc ('\\' :: e :: r) = (parseEsc r).map (fun sr => (e :: sr.1, sr.2)) := by
  rw [parseEsc.eq_def]; simp [he]

theorem parseEsc_plain (c : Char) (r : List Char) (h1 : ¬ c = '"') (h2 : ¬ c = '\\') :
    parseEsc (c :: r) = (parseEsc r).map (fun sr => (c :: sr.1, sr.2)) := by
  rw [parseEsc.eq_def]; simp [h1, h2]

theorem parseEsc_escChars : ∀ (s rest : List Char),
    parseEsc (escChars s ++ '"' :: rest) = some (s, rest) := by
  intro s
  induction s with
  | nil => intro rest; simpa [escChars] using parseEsc_quote rest
  | cons c t ih =>
    intro rest
    by_cases h1 : c = '"'
    · subst h1
      simp [escChars, escChar, parseEsc_escaped, ih rest]
    · by_cases h2 : c = '\\'
      · subst h2
        simp [escChars, escChar, parseEsc_escaped, ih rest]
      · simp [escChars, escChar, h1, h2, parseEsc_plain c _ h1 h2, ih rest]

theorem parseStr_append (s : String) (rest : List Char) :
    parseStr (escChars s.data ++ '"' :: rest) = .ok (s, rest) := by
  simp [parseStr, parseEsc_escChars]

theorem stripPfx_data_options (r : List Char) :
    stripPfx (lit ",\"data\":\"") (lit ",\"options\":" ++ r) = none := rfl

theorem parseOptData_none (r : List Char) :
    parseOptData (lit ",\"options\":" ++ r) = .ok (none, lit ",\"options\":" ++ r) := by
  simp [parseOptData, stripPfx_data_options]

theorem parseOptData_some (d : String) (r : List Char) :
    parseOptData (lit ",\"data\":\"" ++ (escChars d.data ++ ('"' :: r))) = .ok (some d, r) := by
  simp [parseOptData, stripPfx_append, parseEsc_escChars]

theorem parseOptionsTail_append (opts : String) :
    parseOptionsTail (opts.data ++ ['\x7d']) = .ok opts := by
  simp [parseOptionsTail, List.getLast?_concat, List.dropLast_concat]

theorem data_threeslash : ("://" : String).data = [':', '/', '/'] := rfl

theorem takeWhile_append_stop {q : Char → Bool} :
    ∀ {s : List Char} (x : Char) (t : List Char), (∀ c ∈ s, q c = true) → q x = false →
      (s ++ x :: t).takeWhile q = s ∧ (s ++ x :: t).dropWhile q = x :: t := by
  intro s
  induction s with
  | nil =>
    intro x t _ hx
    constructor
    · simp [List.takeWhile_cons, hx]
    · simp [List.dropWhile_cons, hx]
  | cons c u ih =>
    intro x t hall hx
    have hc : q c = true := hall c (List.mem_cons_self c u)
    have hu : ∀ d ∈ u, q d = true := fun d hd => hall d (List.mem_cons_of_mem c hd)
    obtain ⟨h1, h2⟩ := ih x t hu hx
    constructor
    · simp [List.takeWhile_cons, hc, h1]
    · simp [List.dropWhile_cons, hc, h2]

theorem parseUrl_urlString (u : Url) (h : ':' ∉ u.scheme.data) :
    parseUrl (urlString u) = u := by
  have hq : ∀ c ∈ u.scheme.data, (!(c = ':') : Bool) = true := by
    intro c hc
    have : c ≠ ':' := fun e => h (e ▸ hc)
    simp [this]
  have hd : (urlString u).data = u.scheme.data ++ ':' :: '/' :: '/' :: u.path.data := by
    show ((u.scheme ++ "://") ++ u.path).data = _
    rw [String.data_append, String.data_append, data_threeslash]
    simp
  obtain ⟨ht, hdrop⟩ := takeWhile_append_stop (q := fun c => !(c = ':'))
    ':' ('/' :: '/' :: u.path.data) hq (by simp)
  show (⟨⟨(urlString u).data.takeWhile (fun c => !(c = ':'))⟩,
    ⟨urlPathOfRest ((urlString u).data.dropWhile (fun c => !(c = ':')))⟩⟩ : Url) = u
  rw [hd, hdrop, ht]
  rfl

/-- Metadata round-trip: parsing the rendered body recovers the archive's
metadata fields (with an empty filesystem map). -/
theorem parseMetaBody_metaBody (A : Archive)
    (h1 : ':' ∉ A.filenameURL.scheme.data) (h2 : ':' ∉ A.pwdURL.scheme.data) :
    parseMetaBody (metaBody A) = .ok { A with filesystems := [] } := by
  cases hd : A.data with
  | none =>
    simp only [parseMetaBody, metaBody, hd, dataChunk, List.append_assoc,
      List.singleton_append, List.nil_append, expectLit_append, ebind_ok,
      parseStr_append, parseOptData_none, parseOptionsTail_append]
    rw [parseUrl_urlString _ h1, parseUrl_urlString _ h2]
    rfl
  | some d =>
    simp only [parseMetaBody, metaBody, hd, dataChunk, List.append_assoc,
      List.singleton_append, List.cons_append, List.nil_append, expectLit_append,
      ebind_ok, parseStr_append, parseOptData_some, parseOptionsTail_append]
    rw [parseUrl_urlString _ h1, parseUrl_urlString _ h2]
    rfl

/-- Full metadata inversion, starting from the opening brace. -/
theorem parseMeta_metaChars (A : Archive)
    (h1 : ':' ∉ A.filenameURL.scheme.data) (h2 : ':' ∉ A.pwdURL.scheme.data) :
    parseMeta (metaChars A) = .ok { A with filesystems := [] } := by
  show parseMeta ('\x7b' :: '"' :: metaBody A) = _
  rw [parseMeta]
  simp only [if_pos rfl]
  exact parseMetaBody_metaBody A h1 h2

/-! ## Inversion of the container codec -/

theorem json_data (A : Archive) : (Archive.json A).data = metaChars A := rfl

theorem norm_data_cons (p : String) :
    (NormalizeAndAnonymizePath p).data = '/' :: joinSegs (anonSegs (cleanCore []
      (splitSegs (slashify (driveStep (uncStep p.data)))))) := rfl

theorem entry_data (s p : String) :
    (s ++ NormalizeAndAnonymizePath p).data
      = s.data ++ '/' :: joinSegs (anonSegs (cleanCore []
          (splitSegs (slashify (driveStep (uncStep p.data)))))) := by
  rw [String.data_append, norm_data_cons]

theorem no_slash_pred {s : List Char} (h : '/' ∉ s) :
    ∀ c ∈ s, (!(c = '/') : Bool) = true := by
  intro c hc
  have : c ≠ '/' := fun e => h (e ▸ hc)
  simp [this]

theorem schemeOfEntry_entry (s p : String) (h : '/' ∉ s.data) :
    schemeOfEntry (s ++ NormalizeAndAnonymizePath p) = s := by
  obtain ⟨ht, _⟩ := takeWhile_append_stop (q := fun c => !(c = '/')) '/'
    (joinSegs (anonSegs (cleanCore [] (splitSegs (slashify (driveStep (uncStep p.data)))))))
    (no_slash_pred h) (by simp)
  show (⟨(s ++ NormalizeAndAnonymizePath p).data.takeWhile (fun c => !(c = '/'))⟩ : String) = s
  rw [entry_data, ht]

theorem pathOfEntry_entry (s p : String) (h : '/' ∉ s.data) :
    pathOfEntry (s ++ NormalizeAndAnonymizePath p) = NormalizeAndAnonymizePath p := by
  obtain ⟨_, hd⟩ := takeWhile_append_stop (q := fun c => !(c = '/')) '/'
    (joinSegs (anonSegs (cleanCore [] (splitSegs (slashify (driveStep (uncStep p.data)))))))
    (no_slash_pred h) (by simp)
  show (⟨(s ++ NormalizeAndAnonymizePath p).data.dropWhile (fun c => !(c = '/'))⟩ : String)
    = NormalizeAndAnonymizePath p
  rw [entry_data, hd]
  rfl

theorem entry_ne_metadata (s p : String) (h : '/' ∉ s.data) :
    (s ++ NormalizeAndAnonymizePath p) ≠ "metadata.json" := by
  intro e
  have hm : '/' ∈ (s ++ NormalizeAndAnonymizePath p).data := by
    rw [entry_data]
    exact List.mem_append.mpr (Or.inr (List.mem_cons_self _ _))
  rw [e] at hm
  exact absurd hm (by decide)

theorem filter_writeEntries : ∀ (m : List (String × FS)),
    (∀ sf ∈ m, '/' ∉ (Prod.fst sf).data) →
    (writeEntries m).filter (fun e => !(e.1 == "metadata.json")) = writeEntries m := by
  intro m
  induction m with
  | nil => intro _; rfl
  | cons sf rest ih =>
    intro h
    rw [writeEntries, List.filter_append,
      ih (fun t ht => h t (List.mem_cons_of_mem sf ht))]
    congr 1
    rw [List.filter_eq_self]
    intro e he
    rcases List.mem_map.mp he with ⟨x, _, rfl⟩
    have := entry_ne_metadata sf.1 x.1 (h sf (List.mem_cons_self sf rest))
    simp [this]

theorem readFilesFor_append (a b : List (String × String)) (s : String) :
    readFilesFor (a ++ b) s = readFilesFor a s ++ readFilesFor b s := by
  simp [readFilesFor, List.filterMap_append]

theorem readFilesFor_chunk_self (s : String) (l : List (String × String))
    (h : '/' ∉ s.data) :
    readFilesFor (l.map (fun e => (s ++ NormalizeAndAnonymizePath e.1, e.2))) s
      = l.map (fun e => (NormalizeAndAnonymizePath e.1, e.2)) := by
  induction l with
  | nil => rfl
  | cons x t ih =>
    simp only [readFilesFor, List.map_cons, List.filterMap_cons] at ih ⊢
    rw [schemeOfEntry_entry s x.1 h, if_pos rfl, pathOfEntry_entry s x.1 h, ih]

theorem readFilesFor_chunk_other (s s0 : String) (l : List (String × String))
    (h : '/' ∉ s0.data) (hne : s0 ≠ s) :
    readFilesFor (l.map (fun e => (s0 ++ NormalizeAndAnonymizePath e.1, e.2))) s = [] := by
  induction l with
  | nil => rfl
  | cons x t ih =>
    simp only [readFilesFor, List.map_cons, List.filterMap_cons] at ih ⊢
    rw [schemeOfEntry_entry s0 x.1 h, if_neg hne, ih]

theorem readFilesFor_writeEntries_nil : ∀ (m : List (String × FS)) (s : String),
    s ∉ m.map Prod.fst → (∀ sf ∈ m, '/' ∉ (Prod.fst sf).data) →
    readFilesFor (writeEntries m) s = [] := by
  intro m
  induction m with
  | nil => intro s _ _; rfl
  | cons sf rest ih =>
    intro s hs h
    rw [writeEntries, readFilesFor_append,
      readFilesFor_chunk_other s sf.1 _ (h sf (List.mem_cons_self sf rest))
        (fun e => hs (e ▸ List.mem_map_of_mem Prod.fst (List.mem_cons_self sf rest))),
      ih s (fun hm => hs (List.mem_cons_of_mem _ hm))
        (fun t ht => h t (List.mem_cons_of_mem sf ht))]
    rfl

theorem readFilesFor_writeEntries : ∀ (m : List (String × FS)) (s : String),
    (m.map Prod.fst).Nodup → (∀ sf ∈ m, '/' ∉ (Prod.fst sf).data) →
    readFilesFor (writeEntries m) s =
      List.map (fun e : String × String => (NormalizeAndAnonymizePath e.1, e.2))
        (match assocFind m s with
         | some fs => walkFiles fs
         | none => []) := by
  intro m
  induction m with
  | nil => intro s _ _; rfl
  | cons sf rest ih =>
    intro s hnd h
    have hndr : (rest.map Prod.fst).Nodup := (List.nodup_cons.mp hnd).2
    have hnm : sf.1 ∉ rest.map Prod.fst := (List.nodup_cons.mp hnd).1
    have hrest : ∀ t ∈ rest, '/' ∉ (Prod.fst t).data :=
      fun t ht => h t (List.mem_cons_of_mem sf ht)
    rw [writeEntries, readFilesFor_append]
    by_cases he : sf.1 = s
    · subst he
      rw [readFilesFor_chunk_self sf.1 _ (h sf (List.mem_cons_self sf rest)),
        readFilesFor_writeEntries_nil rest sf.1 hnm hrest, List.append_nil]
      simp [assocFind]
    · rw [readFilesFor_chunk_other s sf.1 _ (h sf (List.mem_cons_self sf rest)) he,
        List.nil_append, ih s hndr hrest]
      simp [assocFind, he]

theorem assocFind_mem {α : Type} : ∀ {l : List (String × α)} {s : String} {v : α},
    assocFind l s = some v → (s, v) ∈ l := by
  intro l
  induction l with
  | nil => intro s v h; cases h
  | cons e rest ih =>
    intro s v h
    rw [assocFind] at h
    by_cases he : e.1 = s
    · rw [if_pos he] at h
      injection h with h2
      exact List.mem_cons.mpr (Or.inl (by rw [← he, ← h2]))
    · rw [if_neg he] at h
      exact List.mem_cons_of_mem e (ih h)

theorem mem_writeEntries : ∀ {m : List (String × FS)} {sf : String × FS}, sf ∈ m →
    ∀ {e : String × String}, e ∈ walkFiles sf.2 →
    (sf.1 ++ NormalizeAndAnonymizePath e.1, e.2) ∈ writeEntries m := by
  intro m
  induction m with
  | nil => intro sf h; cases h
  | cons a rest ih =>
    intro sf hsf e he
    rw [writeEntries]
    rcases List.mem_cons.mp hsf with rfl | hsf2
    · exact List.mem_append_left _ (List.mem_map_of_mem _ he)
    · exact List.mem_append_right _ (ih hsf2 he)

theorem assocFind_map_self {β : Type} (g : String → β) :
    ∀ (l : List String) (x : String),
      assocFind (l.map (fun s => (s, g s))) x = if x ∈ l then some (g x) else none := by
  intro l
  induction l with
  | nil => intro x; simp [assocFind]
  | cons a t ih =>
    intro x
    simp only [List.map_cons, assocFind]
    by_cases hax : a = x
    · subst hax
      simp
    · rw [if_neg hax, ih x]
      by_cases hx : x ∈ t
      · simp [hx, List.mem_cons]
      · have : x ∉ a :: t := by
          intro hm
          rcases List.mem_cons.mp hm with e | hm2
          · exact hax e.symm
          · exact hx hm2
        simp [hx, this]

theorem mem_dedupFirst : ∀ (l seen : List String) (x : String),
    x ∈ dedupFirst seen l ↔ (x ∈ l ∧ x ∉ seen) := by
  intro l
  induction l with
  | nil => intro seen x; simp [dedupFirst]
  | cons s rest ih =>
    intro seen x
    by_cases hs : s ∈ seen
    · rw [dedupFirst, if_pos hs, ih]
      constructor
      · rintro ⟨h1, h2⟩
        exact ⟨List.mem_cons_of_mem s h1, h2⟩
      · rintro ⟨h1, h2⟩
        rcases List.mem_cons.mp h1 with rfl | h3
        · exact absurd hs h2
        · exact ⟨h3, h2⟩
    · rw [dedupFirst, if_neg hs]
      constructor
      · intro h
        rcases List.mem_cons.mp h with rfl | h2
        · exact ⟨List.mem_cons_self x rest, hs⟩
        · obtain ⟨h3, h4⟩ := (ih (s :: seen) x).mp h2
          refine ⟨List.mem_cons_of_mem s h3, fun hm => h4 (List.mem_cons_of_mem s hm)⟩
      · rintro ⟨h1, h2⟩
        rcases List.mem_cons.mp h1 with rfl | h3
        · exact List.mem_cons_self x _
        · by_cases hxs : x = s
          · subst hxs
            exact List.mem_cons_self x _
          · refine List.mem_cons_of_mem s ((ih (s :: seen) x).mpr ⟨h3, ?_⟩)
            intro hm
            rcases List.mem_cons.mp hm with e | hm2
            · exact hxs e
            · exact h2 hm2

theorem filesOfA_some {A : Archive} {s : String} {fs : FS}
    (h : assocFind A.filesystems s = some fs) : filesOfA A s = walkFiles fs := by
  unfold filesOfA
  rw [h]

theorem filesOfA_none {A : Archive} {s : String}
    (h : assocFind A.filesystems s = none) : filesOfA A s = [] := by
  unfold filesOfA
  rw [h]

theorem writeArchive_ok {A : Archive} {c : Container} (hw : writeArchive A = .ok c) :
    c = ("metadata.json", Archive.json (normalizeMetaArchive A)) :: writeEntries A.filesystems := by
  unfold writeArchive at hw
  by_cases h : dataOk A = true
  · rw [if_pos h] at hw
    injection hw with h2
    exact h2.symm
  · rw [if_neg h] at hw
    cases hw

/-- The master round-trip theorem: reading what the writer produced yields
an archive whose metadata is the normalized metadata of the original and
whose per-scheme file lists are the original ones with normalized paths. -/
theorem write_read_master (A : Archive) (c : Container)
    (hnd : (A.filesystems.map Prod.fst).Nodup)
    (hsl : ∀ sf ∈ A.filesystems, '/' ∉ (Prod.fst sf).data)
    (h1 : ':' ∉ A.filenameURL.scheme.data) (h2 : ':' ∉ A.pwdURL.scheme.data)
    (hw : writeArchive A = .ok c) :
    ∃ A', readArchive c = .ok A' ∧
      A'.arcType = A.arcType ∧ A'.k6Version = A.k6Version ∧
      A'.options = A.options ∧ A'.data = A.data ∧
      A'.filenameURL = normalizeUrl A.filenameURL ∧
      A'.pwdURL = normalizeUrl A.pwdURL ∧
      (∀ s, filesOfA A' s = normFilesOfA A s) := by
  have hc := writeArchive_ok hw
  subst hc
  set W := writeEntries A.filesystems with hW
  set J := Archive.json (normalizeMetaArchive A) with hJ
  have e1 : assocFind (("metadata.json", J) :: W) "metadata.json" = some J := by
    simp [assocFind]
  have e2 : parseMeta J.data = .ok (normalizeMetaArchive A) := by
    rw [hJ, json_data]
    exact parseMeta_metaChars (normalizeMetaArchive A) h1 h2
  have e3 : (("metadata.json", J) :: W).filter (fun e => !(e.1 == "metadata.json")) = W := by
    rw [List.filter_cons_of_neg (by simp), hW, filter_writeEntries _ hsl]
  have hread : readArchive (("metadata.json", J) :: W) = .ok { normalizeMetaArchive A with
      filesystems := (dedupFirst [] ("file" :: "https" :: W.map (fun e => schemeOfEntry e.1))).map
        (fun s => (s, FS.sealed (readFilesFor W s))) } := by
    simp only [readArchive, e1, e2, e3]
  refine ⟨_, hread, rfl, rfl, rfl, rfl, rfl, rfl, fun s => ?_⟩
  show filesOfA _ s = _
  rw [filesOfA]
  simp only []
  rw [assocFind_map_self (fun s => FS.sealed (readFilesFor W s))]
  by_cases hmem : s ∈ dedupFirst [] ("file" :: "https" :: W.map (fun e => schemeOfEntry e.1))
  · rw [if_pos hmem]
    show readFilesFor W s = normFilesOfA A s
    rw [hW, readFilesFor_writeEntries A.filesystems s hnd hsl]
    rfl
  · rw [if_neg hmem]
    by_cases hfa : filesOfA A s = []
    · simp [normFilesOfA, hfa]
    · exfalso
      apply hmem
      rw [mem_dedupFirst]
      refine ⟨?_, List.not_mem_nil s⟩
      rcases hfs : assocFind A.filesystems s with _ | fs
      · exact absurd (filesOfA_none hfs) hfa
      · have hw2 : walkFiles fs ≠ [] := fun e => hfa ((filesOfA_some hfs).trans e)
        rcases List.exists_mem_of_ne_nil _ hw2 with ⟨x, hx⟩
        have hmm : (s, fs) ∈ A.filesystems := assocFind_mem hfs
        have hin : (s ++ NormalizeAndAnonymizePath x.1, x.2) ∈ W :=
          mem_writeEntries hmm hx
        have : schemeOfEntry (s ++ NormalizeAndAnonymizePath x.1) = s :=
          schemeOfEntry_entry s x.1 (hsl (s, fs) hmm)
        refine List.mem_cons_of_mem _ (List.mem_cons_of_mem _ ?_)
        rw [← this]
        exact List.mem_map_of_mem (fun e => schemeOfEntry e.1) hin

/-! ## The claims -/

/-- Claim C2 (corrected).  The spec asserts `normalize(normalize(p)) ==
normalize(p)` for every path `p`; on the spec's own algorithm this fails
for paths in which lexical cleaning exposes a drive-letter pattern (for
example `//C:/d`).  Amended: `NormalizeAndAnonymizePath` is idempotent on
every path that contains no colon. -/
theorem claim_normalize_idempotent (p : String) (h : ':' ∉ p.data) :
    NormalizeAndAnonymizePath (NormalizeAndAnonymizePath p)
      = NormalizeAndAnonymizePath p :=
  normalize_idem_of_no_colon p h

/-- Counterexample to claim C2 as stated: normalizing `//C:/d` once yields
`/C:/d` (cleaning collapses the two slashes), and normalizing again fires
the drive-letter rewrite, yielding `/C/d`. -/
theorem claim_normalize_idempotent_cex :
    NormalizeAndAnonymizePath "//C:/d" = "/C:/d" ∧
    NormalizeAndAnonymizePath (NormalizeAndAnonymizePath "//C:/d") = "/C/d" ∧
    NormalizeAndAnonymizePath (NormalizeAndAnonymizePath "//C:/d")
      ≠ NormalizeAndAnonymizePath "//C:/d" := by decide

/-- Witness for claim C2's amended theorem at a concrete colon-free path. -/
theorem claim_normalize_idempotent_witness :
    (':' ∉ ("/home/alice/b.js" : String).data) ∧
    NormalizeAndAnonymizePath (NormalizeAndAnonymizePath "/home/alice/b.js")
      = NormalizeAndAnonymizePath "/home/alice/b.js" :=
  ⟨by decide, claim_normalize_idempotent "/home/alice/b.js" (by decide)⟩

/-- Claim C5 (confirmed).  The concrete rewrites of §4.A's edge cases: a
UNC share root collapses with the share name anonymized, a single leading
backslash is not UNC, a drive letter becomes a top-level segment; and, in
general, the segment following a home-like parent (matched
case-insensitively, parent case preserved) is replaced by the literal
`nobody`. -/
theorem claim_normalize_rewrites :
    NormalizeAndAnonymizePath "\\\\MYSHARED\\dir\\dir\\f" = "/nobody/dir/dir/f" ∧
    NormalizeAndAnonymizePath "\\NOTSHARED\\dir\\f" = "/NOTSHARED/dir/f" ∧
    NormalizeAndAnonymizePath "C:\\Users\\alice\\x" = "/C/Users/nobody/x" ∧
    ∀ (parent user : List Char) (rest : List (List Char)),
      isHomeLike parent = true →
      (∀ seg ∈ parent :: user :: rest,
        goodSeg seg ∧ '/' ∉ seg ∧ '\\' ∉ seg ∧ ':' ∉ seg) →
      normChars (renderAbs (parent :: user :: rest))
        = renderAbs (parent :: nobodySeg :: rest) := by
  refine ⟨by decide, by decide, by decide, ?_⟩
  intro parent user rest hhome hgood
  rw [normChars_renderAbs (fun seg hs => (hgood seg hs).1)
    (fun seg hs => (hgood seg hs).2.1) (fun seg hs => (hgood seg hs).2.2.1)
    (fun seg hs => (hgood seg hs).2.2.2)]
  rw [anonSegs, if_pos hhome]
  rfl

/-- Witness for claim C5's general anonymization statement, at the segment
list of `/Users/alice/x`. -/
theorem claim_normalize_rewrites_witness :
    isHomeLike ['U', 's', 'e', 'r', 's'] = true ∧
    normChars (renderAbs [['U', 's', 'e', 'r', 's'], ['a', 'l', 'i', 'c', 'e'], ['x']])
      = renderAbs [['U', 's', 'e', 'r', 's'], nobodySeg, ['x']] :=
  ⟨by decide, claim_normalize_rewrites.2.2.2 ['U', 's', 'e', 'r', 's']
    ['a', 'l', 'i', 'c', 'e'] [['x']] (by decide) (by decide)⟩

/-- Well-formedness of an archive's namespace: distinct scheme keys, no
separator inside a scheme name, no colon inside a URL scheme. -/
def wfArchive (A : Archive) : Prop :=
  (A.filesystems.map Prod.fst).Nodup ∧
  (∀ sf ∈ A.filesystems, '/' ∉ (Prod.fst sf).data) ∧
  ':' ∉ A.filenameURL.scheme.data ∧ ':' ∉ A.pwdURL.scheme.data

instance (A : Archive) : Decidable (wfArchive A) :=
  inferInstanceAs (Decidable (_ ∧ _ ∧ _ ∧ _))

/-- An archive whose URL paths and file paths are all fixed points of the
normalizer. -/
def normalizedArchive (A : Archive) : Prop :=
  NormalizeAndAnonymizePath A.filenameURL.path = A.filenameURL.path ∧
  NormalizeAndAnonymizePath A.pwdURL.path = A.pwdURL.path ∧
  ∀ sf ∈ A.filesystems, ∀ e ∈ walkFiles (Prod.snd sf),
    NormalizeAndAnonymizePath (Prod.fst e) = Prod.fst e

instance (A : Archive) : Decidable (normalizedArchive A) :=
  inferInstanceAs (Decidable (_ ∧ _ ∧ _))

/-- Claim C1 (corrected).  The spec asserts `read(write(A))` equals `A`
modulo legacy string fields, sealing, and empty-scheme pruning, for every
archive `A`; but the writer normalizes and anonymizes every path
(claim C6, test `TestArchiveReadWrite/Anonymized`), so paths such as
`/home/u/a.js` do not survive unchanged.  Amended: the equality holds for
every archive whose URL paths and file paths are already normalized.
Metadata fields (type, version, options, data, both URLs) are preserved
exactly, and every scheme's files (the cache layer for a cache-on-read
filesystem) survive byte-for-byte; schemes with no files may be pruned or
re-materialized empty, which the per-scheme file-list equality ignores. -/
theorem claim_roundtrip_preserves_archive (A : Archive) (c : Container)
    (hwf : wfArchive A) (hn : normalizedArchive A)
    (hw : writeArchive A = .ok c) :
    ∃ A', readArchive c = .ok A' ∧
      A'.arcType = A.arcType ∧ A'.k6Version = A.k6Version ∧
      A'.options = A.options ∧ A'.data = A.data ∧
      A'.filenameURL = A.filenameURL ∧ A'.pwdURL = A.pwdURL ∧
      (∀ s, filesOfA A' s = filesOfA A s) := by
  obtain ⟨hnd, hsl, h1, h2⟩ := hwf
  obtain ⟨hn1, hn2, hn3⟩ := hn
  obtain ⟨A', hr, e1, e2, e3, e4, e5, e6, e7⟩ := write_read_master A c hnd hsl h1 h2 hw
  refine ⟨A', hr, e1, e2, e3, e4, ?_, ?_, ?_⟩
  · rw [e5]
    unfold normalizeUrl
    rw [hn1]
  · rw [e6]
    unfold normalizeUrl
    rw [hn2]
  · intro s
    rw [e7]
    unfold normFilesOfA
    rcases hfs : assocFind A.filesystems s with _ | fs
    · rw [filesOfA_none hfs]
      rfl
    · rw [filesOfA_some hfs]
      have hmm := assocFind_mem hfs
      have hid : ∀ e ∈ walkFiles fs,
          (fun e : String × String => (NormalizeAndAnonymizePath e.1, e.2)) e = id e := by
        intro e he
        have hn4 := hn3 (s, fs) hmm e he
        show (NormalizeAndAnonymizePath e.1, e.2) = e
        rw [hn4]
      rw [List.map_congr_left hid, List.map_id]

/-- An archive with an un-normalized home path, used to refute claim C1 as
stated. -/
def cexArchive : Archive :=
  { arcType := "js", k6Version := "v0.34.0", options := "null", filename := "",
    filenameURL := ⟨"file", "/home/u/a.js"⟩, pwd := "",
    pwdURL := ⟨"file", "/home/u"⟩, data := none,
    filesystems := [("file", FS.mem [("/home/u/a.js", "x")])] }

/-- Counterexample to claim C1 as stated: a round trip rewrites the entry
URL path `/home/u/a.js` to `/home/nobody/a.js`, so the read archive is not
equal to the original modulo only legacy fields, sealing, and
empty-scheme pruning. -/
theorem claim_roundtrip_preserves_archive_cex :
    ((roundtrip cexArchive).toOption.map (fun A => A.filenameURL.path)
      = some "/home/nobody/a.js") ∧
    cexArchive.filenameURL.path ≠ "/home/nobody/a.js" := by decide

/-- A fully normalized archive mirroring the `Roundtrip` seed test. -/
def rtArchive : Archive :=
  { arcType := "js", k6Version := "v0.34.0", options := "null", filename := "",
    filenameURL := ⟨"file", "/path/to/a.js"⟩, pwd := "",
    pwdURL := ⟨"file", "/path/to"⟩, data := some "// a contents",
    filesystems :=
      [("file", FS.mem [("/path/to/a.js", "// a contents"),
                        ("/path/to/b.js", "// b contents"),
                        ("/path/with spaces/a.js", "// spaces"),
                        ("/path/with日本語/b.js", "// unicode")]),
       ("https", FS.mem [("/cdnjs.com/libraries/Faker", "// faker contents")])] }

/-- The container produced by writing `rtArchive`. -/
def rtContainer : Container :=
  match writeArchive rtArchive with
  | .ok c => c
  | .error _ => []

/-- Witness for claim C1's amended theorem at the `Roundtrip` seed
archive. -/
theorem claim_roundtrip_preserves_archive_witness :
    wfArchive rtArchive ∧ normalizedArchive rtArchive ∧
    ∃ A', readArchive rtContainer = .ok A' ∧
      A'.arcType = rtArchive.arcType ∧ A'.k6Version = rtArchive.k6Version ∧
      A'.options = rtArchive.options ∧ A'.data = rtArchive.data ∧
      A'.filenameURL = rtArchive.filenameURL ∧ A'.pwdURL = rtArchive.pwdURL ∧
      (∀ s, filesOfA A' s = filesOfA rtArchive s) :=
  ⟨by decide, by decide,
    claim_roundtrip_preserves_archive rtArchive rtContainer (by decide) (by decide) (by decide)⟩

/-- Claim C3 (confirmed; the archive writer is spec-modelled).  For an
archive with non-nil data, writing succeeds exactly when the `file`
filesystem holds, at the normalized entry path, a file whose bytes equal
the data (file paths compared after normalization, as the writer emits
them); otherwise writing fails with the error message
`the main script wasn't present in the cached filesystem`, and the
`Except.error` result carries no container — nothing is written. -/
theorem claim_write_data_invariant (A : Archive) (d : String)
    (hd : A.data = some d) :
    ((∃ c, writeArchive A = .ok c) ↔
      assocFind (normFilesOfA A "file")
        (NormalizeAndAnonymizePath A.filenameURL.path) = some d) ∧
    (assocFind (normFilesOfA A "file")
        (NormalizeAndAnonymizePath A.filenameURL.path) ≠ some d →
      writeArchive A = .error mainScriptMissingMsg) := by
  have hok : dataOk A = decide (assocFind (normFilesOfA A "file")
      (NormalizeAndAnonymizePath A.filenameURL.path) = some d) := by
    rw [dataOk, hd]
  constructor
  · constructor
    · rintro ⟨c, hc⟩
      by_contra hne
      rw [writeArchive, hok] at hc
      simp [hne] at hc
    · intro h
      refine ⟨("metadata.json", Archive.json (normalizeMetaArchive A))
        :: writeEntries A.filesystems, ?_⟩
      rw [writeArchive, hok]
      simp [h]
  · intro hne
    rw [writeArchive, hok]
    simp [hne]

/-- The archive of `TestArchiveWithDataNotInFS`: data present, filesystem
map empty. -/
def noDataArchive : Archive :=
  { arcType := "js", k6Version := "v0.34.0", options := "null", filename := "",
    filenameURL := ⟨"file", "/script"⟩, pwd := "",
    pwdURL := ⟨"file", "/"⟩, data := some "test", filesystems := [] }

/-- Witness for claim C3: writing the data-not-in-filesystem archive fails
with exactly the missing-main-script error. -/
theorem claim_write_data_invariant_witness :
    noDataArchive.data = some "test" ∧
    writeArchive noDataArchive = .error mainScriptMissingMsg :=
  ⟨by decide,
    (claim_write_data_invariant noDataArchive "test" (by decide)).2 (by decide)⟩

/-- Claim C6 (confirmed; codec spec-modelled).  Writing and reading an
archive whose entry URL path is `/home/myname/a.js` (pwd `/home/myname`)
yields entry and pwd URL paths under `/home/nobody`, with every file of
the original `file` filesystem reappearing at its normalized (anonymized)
path; equivalently `/C:/Users/Administrator/a.js` becomes
`/C/Users/nobody/a.js`. -/
theorem claim_roundtrip_anonymizes :
    (∀ (A : Archive) (c : Container), wfArchive A →
      A.filenameURL = ⟨"file", "/home/myname/a.js"⟩ →
      A.pwdURL = ⟨"file", "/home/myname"⟩ →
      writeArchive A = .ok c →
      ∃ A', readArchive c = .ok A' ∧
        A'.filenameURL = ⟨"file", "/home/nobody/a.js"⟩ ∧
        A'.pwdURL = ⟨"file", "/home/nobody"⟩ ∧
        ∀ p b, (p, b) ∈ filesOfA A "file" →
          (NormalizeAndAnonymizePath p, b) ∈ filesOfA A' "file") ∧
    (∀ (A : Archive) (c : Container), wfArchive A →
      A.filenameURL = ⟨"file", "/C:/Users/Administrator/a.js"⟩ →
      A.pwdURL = ⟨"file", "/C:/Users/Administrator"⟩ →
      writeArchive A = .ok c →
      ∃ A', readArchive c = .ok A' ∧
        A'.filenameURL = ⟨"file", "/C/Users/nobody/a.js"⟩ ∧
        A'.pwdURL = ⟨"file", "/C/Users/nobody"⟩ ∧
        ∀ p b, (p, b) ∈ filesOfA A "file" →
          (NormalizeAndAnonymizePath p, b) ∈ filesOfA A' "file") := by
  constructor
  · intro A c hwf hfn hpwd hw
    obtain ⟨hnd, hsl, h1, h2⟩ := hwf
    obtain ⟨A', hr, _, _, _, _, e5, e6, e7⟩ := write_read_master A c hnd hsl h1 h2 hw
    refine ⟨A', hr, ?_, ?_, ?_⟩
    · rw [e5, hfn]; decide
    · rw [e6, hpwd]; decide
    · intro p b hmem
      rw [e7]
      exact List.mem_map_of_mem (fun e => (NormalizeAndAnonymizePath e.1, e.2)) hmem
  · intro A c hwf hfn hpwd hw
    obtain ⟨hnd, hsl, h1, h2⟩ := hwf
    obtain ⟨A', hr, _, _, _, _, e5, e6, e7⟩ := write_read_master A c hnd hsl h1 h2 hw
    refine ⟨A', hr, ?_, ?_, ?_⟩
    · rw [e5, hfn]; decide
    · rw [e6, hpwd]; decide
    · intro p b hmem
      rw [e7]
      exact List.mem_map_of_mem (fun e => (NormalizeAndAnonymizePath e.1, e.2)) hmem

/-- The anonymization seed archive: entry under `/home/myname`. -/
def anonArchive : Archive :=
  { arcType := "js", k6Version := "v0.34.0", options := "null", filename := "",
    filenameURL := ⟨"file", "/home/myname/a.js"⟩, pwd := "",
    pwdURL := ⟨"file", "/home/myname"⟩, data := some "// a contents",
    filesystems :=
      [("file", FS.mem [("/home/myname/a.js", "// a contents"),
                        ("/home/myname/b.js", "// b contents")])] }

/-- The container produced by writing `anonArchive`. -/
def anonContainer : Container :=
  match writeArchive anonArchive with
  | .ok c => c
  | .error _ => []

/-- Witness for claim C6 at the `/home/myname` seed archive. -/
theorem claim_roundtrip_anonymizes_witness :
    ∃ A', readArchive anonContainer = .ok A' ∧
      A'.filenameURL = ⟨"file", "/home/nobody/a.js"⟩ ∧
      A'.pwdURL = ⟨"file", "/home/nobody"⟩ ∧
      ∀ p b, (p, b) ∈ filesOfA anonArchive "file" →
        (NormalizeAndAnonymizePath p, b) ∈ filesOfA A' "file" :=
  claim_roundtrip_anonymizes.1 anonArchive anonContainer
    (by decide) (by decide) (by decide) (by decide)

theorem assocFind_eq_none {α : Type} : ∀ {l : List (String × α)} {s : String},
    s ∉ l.map Prod.fst → assocFind l s = none := by
  intro l
  induction l with
  | nil => intro s _; rfl
  | cons e rest ih =>
    intro s hs
    have h1 : e.1 ≠ s := fun he =>
      hs (he ▸ List.mem_map_of_mem Prod.fst (List.mem_cons_self e rest))
    rw [assocFind, if_neg h1]
    exact ih (fun hm => hs (List.mem_cons_of_mem _ hm))

/-- Every filesystem of a read archive is sealed. -/
theorem read_fs_sealed {c : Container} {A' : Archive}
    (h : readArchive c = .ok A') :
    ∀ sf ∈ A'.filesystems, ∃ fls, Prod.snd sf = FS.sealed fls := by
  unfold readArchive at h
  rcases hm : assocFind c "metadata.json" with _ | m
  · rw [hm] at h
    exact Except.noConfusion h
  · simp only [hm] at h
    rcases hp : parseMeta m.data with e | md
    · simp only [hp] at h
      exact Except.noConfusion h
    · simp only [hp] at h
      have h2 := Except.ok.inj h
      intro sf hsf
      rw [← h2] at hsf
      rcases List.mem_map.mp hsf with ⟨s, _, rfl⟩
      exact ⟨_, rfl⟩

/-- The cache-on-read seed archive of `TestUsingCacheFromCacheOnReadFs`:
the base layer holds `/wrong`, the cache layer holds `/correct`. -/
def cacheArchive : Archive :=
  { arcType := "js", k6Version := "v0.34.0", options := "null", filename := "",
    filenameURL := ⟨"file", "/correct"⟩, pwd := "",
    pwdURL := ⟨"file", "/"⟩, data := some "test",
    filesystems := [("file", FS.cacheOnRead [("/wrong", "ooops")] [("/correct", "test")])] }

/-- The container produced by writing `cacheArchive`. -/
def cacheContainer : Container :=
  match writeArchive cacheArchive with
  | .ok c => c
  | .error _ => []

/-- The archive read back from `cacheContainer`. -/
def cacheReadArchive : Archive :=
  match readArchive cacheContainer with
  | .ok A => A
  | .error _ => cacheArchive

/-- The `file` filesystem of the read-back cache archive. -/
def cacheFileFS : FS :=
  match assocFind cacheReadArchive.filesystems "file" with
  | some fs => fs
  | none => FS.mem []

/-- Claim C4 (confirmed; the sealed filesystem is spec-modelled, the
loader rewrite is embedded from `src/unnamed/part_001`).  Reading any
path outside a read archive's observed set through its `file` filesystem
fails with the `ErrPathNeverRequestedBefore` sentinel and returns no
data; reading an observed path returns the cached bytes; and the script
loader turns the sentinel into the init-phase `open()` message.
Concretely, after round-tripping the cache-on-read seed archive,
`/correct` reads back its cached bytes while the base-only `/wrong`
fails with the sentinel. -/
theorem claim_sealed_read_sentinel :
    (∀ (c : Container) (A' : Archive) (fsf : FS) (q : String),
      readArchive c = .ok A' →
      assocFind A'.filesystems "file" = some fsf →
      NormalizeAndAnonymizePath q ∉ (walkFiles fsf).map Prod.fst →
      fsRead fsf q = .error .pathNeverRequestedBefore ∧
      (fsIsDir fsf q = false →
        readFile fsf q = .error (initContextErrorMsg q))) ∧
    (∀ (fls : List (String × String)) (q b : String),
      assocFind fls (NormalizeAndAnonymizePath q) = some b →
      fsRead (FS.sealed fls) q = .ok b) ∧
    (fsRead cacheFileFS "/correct" = .ok "test" ∧
     fsRead cacheFileFS "/wrong" = .error .pathNeverRequestedBefore) := by
  refine ⟨?_, ?_, by decide⟩
  · intro c A' fsf q hread hfind hnot
    obtain ⟨fls, hfl⟩ := read_fs_sealed hread ("file", fsf) (assocFind_mem hfind)
    have hfl2 : fsf = FS.sealed fls := hfl
    subst hfl2
    have hnot2 : NormalizeAndAnonymizePath q ∉ fls.map Prod.fst := hnot
    have hnone : assocFind fls (NormalizeAndAnonymizePath q) = none :=
      assocFind_eq_none hnot2
    have hsent : fsRead (FS.sealed fls) q = .error .pathNeverRequestedBefore := by
      simp only [fsRead]
      rw [hnone]
    refine ⟨hsent, ?_⟩
    intro hdir
    unfold readFile
    rw [if_neg (by simp [hdir]), hsent]
  · intro fls q b hfind
    simp only [fsRead]
    rw [hfind]

/-- Witness for claim C4 at the read-back cache archive and the
never-observed path `/other`. -/
theorem claim_sealed_read_sentinel_witness :
    (NormalizeAndAnonymizePath "/other" ∉ (walkFiles cacheFileFS).map Prod.fst) ∧
    fsRead cacheFileFS "/other" = .error .pathNeverRequestedBefore ∧
    readFile cacheFileFS "/other" = .error (initContextErrorMsg "/other") := by
  have h := claim_sealed_read_sentinel.1 cacheContainer cacheReadArchive cacheFileFS
    "/other" (by decide) (by decide) (by decide)
  exact ⟨by decide, h.1, h.2 (by decide)⟩

/-- The container of `TestMalformedMetadata`: its `metadata.json` entry
holds exactly the bytes `\x7b,\x7d`. -/
def malformedContainer : Container := [("metadata.json", "\x7b,\x7d")]

/-- Claim C7 (confirmed; reader spec-modelled).  Reading a container whose
`metadata.json` holds the two-byte body `\x7b,\x7d` fails, and the error
message is exactly the JSON parser diagnostic
`invalid character ',' looking for beginning of object key string`,
propagated verbatim. -/
theorem claim_malformed_metadata :
    readArchive malformedContainer
      = .error "invalid character ',' looking for beginning of object key string" := by
  decide

theorem escChars_id : ∀ {l : List Char},
    (∀ ch ∈ l, ch ≠ '"' ∧ ch ≠ '\\') → escChars l = l := by
  intro l
  induction l with
  | nil => intro _; rfl
  | cons c t ih =>
    intro h
    obtain ⟨h1, h2⟩ := h c (List.mem_cons_self c t)
    simp [escChars, escChar, h1, h2,
      ih (fun d hd => h d (List.mem_cons_of_mem c hd))]

/-- Claim C8 (corrected).  The spec claims the serialized metadata
contains any `<`-bearing filename as a literal substring; that fails for
filenames that also carry JSON-mandatory escapes (a quote or a
backslash).  Amended: for every filename containing `<` and no character
that JSON string syntax must escape, the serialized metadata contains the
filename literally, and the encoder leaves `<`, `>`, `&` unescaped rather
than emitting `<`-style sequences. -/
theorem claim_json_no_html_escape (fn : String) (hlt : '<' ∈ fn.data)
    (hplain : ∀ ch ∈ fn.data, ch ≠ '"' ∧ ch ≠ '\\') (A : Archive)
    (hA : A.filename = fn) :
    fn.data <:+: (Archive.json A).data ∧
    escChar '<' = ['<'] ∧ escChar '>' = ['>'] ∧ escChar '&' = ['&'] := by
  subst hA
  refine ⟨?_, rfl, rfl, rfl⟩
  rw [json_data]
  refine ⟨'\x7b' :: '"' :: (lit "type\":\"" ++ escChars A.arcType.data ++ '"' ::
      (lit ",\"k6_version\":\"" ++ escChars A.k6Version.data ++ '"' ::
       lit ",\"filename\":\"")),
    '"' :: (lit ",\"filename_url\":\"" ++ escChars (urlString A.filenameURL).data ++ '"' ::
     (lit ",\"pwd\":\"" ++ escChars A.pwd.data ++ '"' ::
      (lit ",\"pwd_url\":\"" ++ escChars (urlString A.pwdURL).data ++ '"' ::
       (dataChunk A.data ++ (lit ",\"options\":" ++ (A.options.data ++ ['\x7d'])))))), ?_⟩
  simp [metaChars, metaBody, escChars_id hplain, List.append_assoc]

/-- A zero archive with a filename that needs a JSON escape, refuting
claim C8 as stated. -/
def jsonCexArchive : Archive :=
  { arcType := "", k6Version := "", options := "null", filename := "te\"st<.js",
    filenameURL := ⟨"", ""⟩, pwd := "", pwdURL := ⟨"", ""⟩, data := none,
    filesystems := [] }

/-- Counterexample to claim C8 as stated: the filename `te"st<.js`
contains `<`, yet its serialized metadata does not contain it literally —
the embedded quote is escaped to `\"`. -/
theorem claim_json_no_html_escape_cex :
    '<' ∈ ("te\"st<.js" : String).data ∧
    jsonCexArchive.filename = "te\"st<.js" ∧
    ¬ (("te\"st<.js" : String).data <:+: (Archive.json jsonCexArchive).data) := by
  decide

/-- The archive of `TestArchiveJSONEscape`: a zero archive whose filename
is `test<.js`. -/
def jsonEscapeArchive : Archive :=
  { arcType := "", k6Version := "", options := "null", filename := "test<.js",
    filenameURL := ⟨"", ""⟩, pwd := "", pwdURL := ⟨"", ""⟩, data := none,
    filesystems := [] }

/-- Witness for claim C8's amended theorem at the filename `test<.js`. -/
theorem claim_json_no_html_escape_witness :
    ('<' ∈ ("test<.js" : String).data) ∧
    (("test<.js" : String).data <:+: (Archive.json jsonEscapeArchive).data) :=
  ⟨by decide, (claim_json_no_html_escape "test<.js" (by decide) (by decide)
    jsonEscapeArchive (by decide)).1⟩

/-- Claim C9 (confirmed).  `//etc/hosts` normalizes to `/etc/hosts`
(redundant leading separators collapse); the embedding is a single pure
total function of the path string alone, so its output is deterministic
and independent of any host state. -/
theorem claim_normalize_double_slash :
    NormalizeAndAnonymizePath "//etc/hosts" = "/etc/hosts" ∧
    NormalizeAndAnonymizePath (NormalizeAndAnonymizePath "//etc/hosts")
      = NormalizeAndAnonymizePath "//etc/hosts" := by decide

/-- Claim C10 (confirmed).  `readFile` (the implementation behind the
init-context `open()`, `src/unnamed/part_001`) refuses every path that
names a directory, returning exactly the
`open() can't be used with directories, path: "<path>"` error and no
data. -/
theorem claim_readFile_directory (fs : FS) (p : String)
    (h : fsIsDir fs p = true) :
    readFile fs p = .error (dirErrorMsg p) := by
  unfold readFile
  rw [if_pos h]

/-- Witness for claim C10 at a concrete sealed filesystem and directory. -/
theorem claim_readFile_directory_witness :
    fsIsDir (FS.sealed [("/d/x", "1")]) "/d" = true ∧
    readFile (FS.sealed [("/d/x", "1")]) "/d"
      = .error (dirErrorMsg "/d") :=
  ⟨by decide, claim_readFile_directory (FS.sealed [("/d/x", "1")]) "/d" (by decide)⟩

end K6
